import Mathlib

/-!
Shallow embedding of `src/grow.py`, the core of the grow.md markdown server:
the `Path` classifier, `FileSystem.filelist`, the `content` panel builder and
the `render` composer.  Python strings are Lean `String`s; the Python string
primitives used by the code (`removeprefix`, `removesuffix`, `endswith`,
`split`, `join`, `in`, `sorted`, `set`) are embedded below with Python's
semantics (code-point lexicographic order, explicit-separator split).
Filesystem globbing and the external compiler process are modelled as
explicit oracles passed to the functions that use them.
-/

namespace Grow

/-- Lexicographic code-point order on lists of characters, as Python compares
strings (`str.__le__`). -/
def listLe : List Char → List Char → Bool
  | [], _ => true
  | _ :: _, [] => false
  | a :: as, b :: bs =>
    if a.toNat < b.toNat then true
    else if b.toNat < a.toNat then false
    else listLe as bs

/-- Structural "is a prefix of" test on character lists. -/
def listIsPre : List Char → List Char → Bool
  | [], _ => true
  | _ :: _, [] => false
  | a :: as, b :: bs => a == b && listIsPre as bs

/-- Python `s.removeprefix("/")`: drop one leading separator if present. -/
def removePre (s : String) : String :=
  if s.data.head? = some '/' then ⟨s.data.drop 1⟩ else s

/-- Python `s.removesuffix("/")`: drop one trailing separator if present. -/
def removeSuf (s : String) : String :=
  if s.data.getLast? = some '/' then ⟨s.data.dropLast⟩ else s

/-- Python `s.endswith(suf)`. -/
def pyEndsWith (s suf : String) : Bool :=
  listIsPre suf.data.reverse s.data.reverse

/-- Helper for `pySplit`: accumulates the current segment reversed. -/
def splitAux (c : Char) : List Char → List Char → List String
  | [], acc => [⟨acc.reverse⟩]
  | x :: xs, acc =>
    if x = c then ⟨acc.reverse⟩ :: splitAux c xs []
    else splitAux c xs (x :: acc)

/-- Python `s.split(sep)` for a one-character separator: `"" ↦ [""]`,
`"a/b" ↦ ["a","b"]`, `"a//b" ↦ ["a","","b"]`. -/
def pySplit (s : String) (c : Char) : List String := splitAux c s.data []

/-- Python `"/".join(xs)`. -/
def joinSlash : List String → String
  | [] => ""
  | [x] => x
  | x :: y :: xs => x ++ "/" ++ joinSlash (y :: xs)

/-- Python `c in s` for a one-character needle. -/
def pyContains (s : String) (c : Char) : Bool := s.data.contains c

/-- The suffix test of `Path.__init__`: `p.endswith(".md") or p.endswith(".mkd")`. -/
def isMdName (p : String) : Bool := pyEndsWith p ".md" || pyEndsWith p ".mkd"

/-- `class Path` of grow.py: a `path` string plus `is_file`/`is_dir` flags.
`set_dir`/`set_file` always set the two flags to opposite Booleans, so the
model stores `is_file` and derives `is_dir` from it. -/
structure Path where
  path : String
  is_file : Bool
deriving DecidableEq, Repr

def Path.is_dir (p : Path) : Bool := !p.is_file

/-- `Path.__init__(self, pathstr)`:
`p = pathstr.removeprefix("/").removesuffix("/")`; empty ⇒ the root directory
node `"."`; `.md`/`.mkd` suffix ⇒ file; anything else ⇒ directory. -/
def Path.init (pathstr : String) : Path :=
  let p := removeSuf (removePre pathstr)
  if p = "" then { path := ".", is_file := false }
  else if isMdName p then { path := p, is_file := true }
  else { path := p, is_file := false }

/-- `Path.parent`: a directory is its own parent; for a file, drop the last
`/`-separated component and re-classify `"/".join(components[:-1])`. -/
def Path.parent (p : Path) : Path :=
  if p.is_dir then p
  else Path.init (joinSlash (pySplit p.path '/').dropLast)

/-- `Path.__str__`: files render as `path`, directories as `path + "/"`. -/
def Path.str (p : Path) : String :=
  if p.is_file then p.path else p.path ++ "/"

/-- Python string `≤` as a proposition, for sorting. -/
def strLe (a b : String) : Prop := listLe a.data b.data = true

instance : DecidableRel strLe :=
  fun a b => inferInstanceAs (Decidable (listLe a.data b.data = true))

/-- Python `sorted(set(ls))`: deduplicate, then sort ascending by the
code-point lexicographic string order. -/
def sortedSet (l : List String) : List String :=
  List.insertionSort strLe l.dedup

/-- The comprehension in `FileSystem.filelist`:
`f"{p.split('/')[0]}/" if "/" in p else p`. -/
def collapse (p : String) : String :=
  if pyContains p '/' then ((pySplit p '/').headD "") ++ "/" else p

/-- `FileSystem.filelist(path)`.  The two `glob.glob("**/*.md(kd)", root_dir=
str(path), recursive=True)` calls are modelled by the oracle `fs`, which maps
the `root_dir` string to the concatenated list of relative match strings; a
nonexistent directory or one without markdown gives `[]` (glob raises
nothing). -/
def FileSystem.filelist (fs : String → List String) (path : Path) : List Path :=
  let ls := fs (Path.str path)
  let ls := ls.map collapse
  let ls := ".." :: sortedSet ls
  ls.map Path.init

/-- The `(proc.returncode, proc.stdout.decode(), proc.stderr.decode())`
triple returned by `compile`. -/
structure CompileResult where
  returncode : Int
  stdout : String
  stderr : String
deriving DecidableEq, Repr

/-- The three kinds of fragment `content` can build, distinguished by the Div
class used in grow.py: `info` is the escaped-text notification naming a
directory, `htmlContent` wraps the compiler stdout as `NotStr` (raw, embedded
verbatim and unescaped), `danger` is the escaped-text error notification
holding the compiler stderr. -/
inductive Frag where
  | info (text : String)
  | htmlContent (html : String)
  | danger (text : String)
deriving DecidableEq, Repr

/-- `content(path)`.  `comp` abstracts `compile`, i.e. the external
`subprocess.run(["unidoc", str(path)], capture_output=True)` call, keyed by
the argument string `str(path)`; the `Nat` component counts how many compiler
invocations the call performs. -/
def content (comp : String → CompileResult) (path : Path) : Frag × Nat :=
  if path.is_file = false then (Frag.info (Path.str path), 0)
  else if (comp (Path.str path)).returncode = 0 then
    (Frag.htmlContent (comp (Path.str path)).stdout, 1)
  else (Frag.danger (comp (Path.str path)).stderr, 1)

/-- `folder(path)`: the listing panel, `FileSystem.filelist(path.parent())`
rendered as links. -/
def folder (fs : String → List String) (path : Path) : List Path :=
  FileSystem.filelist fs path.parent

/-- The page model assembled by `render(req)`: hero heading, listing panel,
content panel, plus the number of compiler invocations performed. -/
structure PageModel where
  heading : Path
  listing : List Path
  body : Frag
  compileCalls : Nat
deriving Repr

/-- `render(req)`: classify `req.url.path`, then assemble the page from
`folder(path)` and `content(path)`. -/
def render (fs : String → List String) (comp : String → CompileResult)
    (reqPath : String) : PageModel :=
  let path := Path.init reqPath
  { heading := path
    listing := folder fs path
    body := (content comp path).1
    compileCalls := (content comp path).2 }

/-- The stripped form `p = pathstr.removeprefix("/").removesuffix("/")`
computed by `Path.__init__`: at most one leading and one trailing separator
are removed. -/
def strip1 (s : String) : String := removeSuf (removePre s)

/-- The final `/`-separated component of a string (the last element of
`s.split("/")`). -/
def lastSeg (p : String) : String := (pySplit p '/').getLastD ""

/-! ### Lemmas about the code-point order and `sortedSet` -/

theorem listLe_cons (a b : Char) (as bs : List Char) :
    listLe (a :: as) (b :: bs) = true ↔
      a.toNat < b.toNat ∨ (a.toNat = b.toNat ∧ listLe as bs = true) := by
  by_cases h1 : a.toNat < b.toNat
  · simp [listLe, h1]
  · by_cases h2 : b.toNat < a.toNat
    · simp [listLe, h1, h2]
      omega
    · have h3 : a.toNat = b.toNat := by omega
      simp [listLe, h1, h2, h3]

theorem listLe_total (x : List Char) : ∀ y, listLe x y = true ∨ listLe y x = true := by
  induction x with
  | nil => intro y; left; rfl
  | cons a as ih =>
    intro y
    cases y with
    | nil => right; rfl
    | cons b bs =>
      rw [listLe_cons, listLe_cons]
      rcases ih bs with h | h
      · by_cases hab : a.toNat < b.toNat
        · left; exact Or.inl hab
        · by_cases hba : b.toNat < a.toNat
          · right; exact Or.inl hba
          · left; exact Or.inr ⟨by omega, h⟩
      · by_cases hba : b.toNat < a.toNat
        · right; exact Or.inl hba
        · by_cases hab : a.toNat < b.toNat
          · left; exact Or.inl hab
          · right; exact Or.inr ⟨by omega, h⟩

theorem listLe_trans (x : List Char) :
    ∀ y z, listLe x y = true → listLe y z = true → listLe x z = true := by
  induction x with
  | nil => intro y z _ _; rfl
  | cons a as ih =>
    intro y z hxy hyz
    cases y with
    | nil => simp [listLe] at hxy
    | cons b bs =>
      cases z with
      | nil => simp [listLe] at hyz
      | cons c cs =>
        rw [listLe_cons] at hxy hyz ⊢
        rcases hxy with h1 | ⟨h1, h1'⟩
        · rcases hyz with h2 | ⟨h2, _⟩
          · exact Or.inl (by omega)
          · exact Or.inl (by omega)
        · rcases hyz with h2 | ⟨h2, h2'⟩
          · exact Or.inl (by omega)
          · exact Or.inr ⟨by omega, ih bs cs h1' h2'⟩

theorem char_toNat_inj {a b : Char} (h : a.toNat = b.toNat) : a = b := by
  have := congrArg Char.ofNat h
  rwa [Char.ofNat_toNat, Char.ofNat_toNat] at this

theorem listLe_antisymm (x : List Char) :
    ∀ y, listLe x y = true → listLe y x = true → x = y := by
  induction x with
  | nil =>
    intro y _ hyx
    cases y with
    | nil => rfl
    | cons b bs => simp [listLe] at hyx
  | cons a as ih =>
    intro y hxy hyx
    cases y with
    | nil => simp [listLe] at hxy
    | cons b bs =>
      rw [listLe_cons] at hxy hyx
      rcases hxy with h1 | ⟨h1, h1'⟩
      · rcases hyx with h2 | ⟨h2, _⟩ <;> omega
      · rcases hyx with h2 | ⟨h2, h2'⟩
        · omega
        · rw [char_toNat_inj h1, ih bs h1' h2']

instance : IsTotal String strLe := ⟨fun a b => listLe_total a.data b.data⟩

instance : IsTrans String strLe :=
  ⟨fun a b c hab hbc => listLe_trans a.data b.data c.data hab hbc⟩

instance : IsAntisymm String strLe :=
  ⟨fun a b h1 h2 => congrArg String.mk (listLe_antisymm a.data b.data h1 h2)⟩

theorem sortedSet_sorted (l : List String) : List.Sorted strLe (sortedSet l) :=
  List.sorted_insertionSort strLe l.dedup

theorem sortedSet_nodup (l : List String) : (sortedSet l).Nodup :=
  (List.perm_insertionSort strLe l.dedup).nodup_iff.mpr (List.nodup_dedup l)

theorem mem_sortedSet {x : String} {l : List String} : x ∈ sortedSet l ↔ x ∈ l := by
  rw [sortedSet, (List.perm_insertionSort strLe l.dedup).mem_iff, List.mem_dedup]

theorem sortedSet_eq_of_mem_iff {l₁ l₂ : List String}
    (h : ∀ x, x ∈ l₁ ↔ x ∈ l₂) : sortedSet l₁ = sortedSet l₂ :=
  List.eq_of_perm_of_sorted
    ((List.perm_ext_iff_of_nodup (sortedSet_nodup l₁) (sortedSet_nodup l₂)).mpr
      (fun a => by rw [mem_sortedSet, mem_sortedSet]; exact h a))
    (sortedSet_sorted l₁) (sortedSet_sorted l₂)

/-! ### Lemmas about the embedded Python string primitives -/

theorem mk_append (a b : List Char) : (⟨a ++ b⟩ : String) = ⟨a⟩ ++ ⟨b⟩ := rfl

theorem removePre_slash_append (s : String) : removePre ("/" ++ s) = s := by
  have hd : ("/" ++ s).data = '/' :: s.data := by
    rw [String.data_append]; rfl
  rw [removePre, hd]
  rfl

theorem removePre_of_head_ne (s : String) (h : s.data.head? ≠ some '/') :
    removePre s = s := by
  rw [removePre, if_neg h]

theorem removeSuf_append_slash (s : String) : removeSuf (s ++ "/") = s := by
  have hd : (s ++ "/").data = s.data ++ ['/'] := by
    rw [String.data_append]
  rw [removeSuf, hd, List.getLast?_concat, List.dropLast_concat]
  simp

theorem removeSuf_of_getLast_ne (s : String) (h : s.data.getLast? ≠ some '/') :
    removeSuf s = s := by
  rw [removeSuf, if_neg h]

theorem listIsPre_head (a : Char) (l w : List Char)
    (h : listIsPre (a :: l) w = true) : w.head? = some a := by
  cases w with
  | nil => simp [listIsPre] at h
  | cons b bs =>
    simp only [listIsPre, Bool.and_eq_true, beq_iff_eq] at h
    rw [h.1]
    rfl

/-- A string with an `.md`/`.mkd` suffix ends in the letter `d`, so in
particular not in a separator. -/
theorem isMdName_getLast {p : String} (h : isMdName p = true) :
    p.data.getLast? = some 'd' := by
  rw [isMdName, Bool.or_eq_true] at h
  rw [← List.head?_reverse]
  rcases h with h | h
  · exact listIsPre_head 'd' ['m', '.'] p.data.reverse h
  · exact listIsPre_head 'd' ['k', 'm', '.'] p.data.reverse h

theorem splitAux_ne_nil (c : Char) : ∀ (l acc : List Char), splitAux c l acc ≠ [] := by
  intro l
  induction l with
  | nil => intro acc; simp [splitAux]
  | cons x xs ih =>
    intro acc
    by_cases hx : x = c
    · simp [splitAux, hx]
    · simpa [splitAux, hx] using ih (x :: acc)

theorem splitAux_of_not_mem (c : Char) :
    ∀ (l acc : List Char), c ∉ l → splitAux c l acc = [⟨acc.reverse ++ l⟩] := by
  intro l
  induction l with
  | nil => intro acc _; simp [splitAux]
  | cons x xs ih =>
    intro acc h
    have hx : x ≠ c := fun e => h (by rw [e]; exact List.mem_cons_self _ _)
    have hxs : c ∉ xs := fun m => h (List.mem_cons_of_mem _ m)
    rw [splitAux, if_neg hx, ih (x :: acc) hxs]
    simp

theorem joinSlash_splitAux :
    ∀ (l acc : List Char), joinSlash (splitAux '/' l acc) = ⟨acc.reverse ++ l⟩ := by
  intro l
  induction l with
  | nil => intro acc; simp [splitAux, joinSlash]
  | cons x xs ih =>
    intro acc
    by_cases hx : x = '/'
    · rw [splitAux, if_pos hx]
      cases hr : splitAux '/' xs [] with
      | nil => exact absurd hr (splitAux_ne_nil '/' xs [])
      | cons r rs =>
        rw [joinSlash]
        have := ih []
        rw [hr] at this
        rw [this]
        show (⟨acc.reverse⟩ ++ "/") ++ ⟨xs⟩ = _
        rw [← mk_append, ← mk_append]
        simp [hx]
    · rw [splitAux, if_neg hx, ih (x :: acc)]
      simp

theorem joinSlash_pySplit (p : String) : joinSlash (pySplit p '/') = p := by
  rw [pySplit, joinSlash_splitAux]
  simp

theorem getLastD_cons_of_ne_nil {α : Type} (a d : α) (l : List α) (h : l ≠ []) :
    (a :: l).getLastD d = l.getLastD d := by
  cases l with
  | nil => exact absurd rfl h
  | cons b t => rfl

theorem takeWhile_append_left (c : Char) :
    ∀ (l l' : List Char), c ∈ l →
      (l ++ l').takeWhile (· != c) = l.takeWhile (· != c) := by
  intro l
  induction l with
  | nil => intro l' h; simp at h
  | cons a as ih =>
    intro l' h
    by_cases ha : a = c
    · simp [List.takeWhile_cons, ha]
    · have h' : c ∈ as := by
        rcases List.mem_cons.mp h with e | m
        · exact absurd e.symm ha
        · exact m
      simp only [List.cons_append, List.takeWhile_cons]
      have hne : (a != c) = true := bne_iff_ne.mpr ha
      rw [hne, ih l' h']

theorem takeWhile_append_sep (c : Char) :
    ∀ (l : List Char), c ∉ l → (l ++ [c]).takeWhile (· != c) = l := by
  intro l
  induction l with
  | nil => simp
  | cons a as ih =>
    intro h
    have ha : a ≠ c := fun e => h (by rw [e]; exact List.mem_cons_self _ _)
    have has : c ∉ as := fun m => h (List.mem_cons_of_mem _ m)
    have hb : (a != c) = true := bne_iff_ne.mpr ha
    simp [List.takeWhile_cons, hb, ih has]

theorem splitAux_getLastD (c : Char) :
    ∀ (l acc : List Char),
      (splitAux c l acc).getLastD "" =
        if c ∈ l then ⟨(l.reverse.takeWhile (· != c)).reverse⟩
        else ⟨acc.reverse ++ l⟩ := by
  intro l
  induction l with
  | nil => intro acc; simp [splitAux]
  | cons x xs ih =>
    intro acc
    by_cases hx : x = c
    · subst hx
      rw [splitAux, if_pos rfl,
        getLastD_cons_of_ne_nil _ _ _ (splitAux_ne_nil x xs []), ih [],
        if_pos (List.mem_cons_self x xs)]
      by_cases hm : x ∈ xs
      · rw [if_pos hm, List.reverse_cons,
          takeWhile_append_left x xs.reverse [x] (List.mem_reverse.mpr hm)]
      · rw [if_neg hm, List.reverse_cons,
          takeWhile_append_sep x xs.reverse (fun m => hm (List.mem_reverse.mp m))]
        simp
    · rw [splitAux, if_neg hx, ih (x :: acc)]
      have hmem : c ∈ x :: xs ↔ c ∈ xs := by
        constructor
        · intro hin
          rcases List.mem_cons.mp hin with e | m
          · exact absurd e (fun e' => hx e'.symm)
          · exact m
        · exact fun m => List.mem_cons_of_mem _ m
      by_cases hm : c ∈ xs
      · rw [if_pos hm, if_pos (hmem.mpr hm), List.reverse_cons,
          takeWhile_append_left c xs.reverse [x] (List.mem_reverse.mpr hm)]
      · rw [if_neg hm, if_neg (fun m => hm (hmem.mp m))]
        simp

theorem lastSeg_eq (p : String) :
    lastSeg p =
      if '/' ∈ p.data then ⟨(p.data.reverse.takeWhile (· != '/')).reverse⟩
      else p := by
  rw [lastSeg, pySplit, splitAux_getLastD]
  split <;> simp

theorem listIsPre_takeWhile (c : Char) :
    ∀ (r : List Char), c ∉ r →
      ∀ (w : List Char), listIsPre r (w.takeWhile (· != c)) = listIsPre r w := by
  intro r
  induction r with
  | nil => intro _ w; rfl
  | cons a as ih =>
    intro h w
    have ha : a ≠ c := fun e => h (by rw [e]; exact List.mem_cons_self _ _)
    have has : c ∉ as := fun m => h (List.mem_cons_of_mem _ m)
    cases w with
    | nil => rfl
    | cons b bs =>
      by_cases hb : b = c
      · rw [List.takeWhile_cons, if_neg (by simp [hb])]
        show listIsPre (a :: as) [] = listIsPre (a :: as) (b :: bs)
        simp [listIsPre, hb, ha]
      · rw [List.takeWhile_cons, if_pos (by simpa using bne_iff_ne.mpr hb)]
        show (a == b && listIsPre as (bs.takeWhile (· != c))) = (a == b && listIsPre as bs)
        rw [ih has bs]

theorem pyEndsWith_lastSeg (p suf : String) (h : '/' ∉ suf.data) :
    pyEndsWith (lastSeg p) suf = pyEndsWith p suf := by
  rw [lastSeg_eq]
  split
  · show listIsPre suf.data.reverse
      (String.data ⟨(p.data.reverse.takeWhile (· != '/')).reverse⟩).reverse = _
    have hdata : (String.data ⟨(p.data.reverse.takeWhile (· != '/')).reverse⟩).reverse
        = p.data.reverse.takeWhile (· != '/') := by
      simp
    rw [hdata, listIsPre_takeWhile '/' suf.data.reverse
      (fun m => h (List.mem_reverse.mp m)) p.data.reverse]
    rfl
  · rfl

theorem isMdName_lastSeg (p : String) : isMdName (lastSeg p) = isMdName p := by
  rw [isMdName, isMdName,
    pyEndsWith_lastSeg p ".md" (by decide), pyEndsWith_lastSeg p ".mkd" (by decide)]

/-! ### Characterization of `Path.init` -/

theorem init_spec (s : String) :
    Path.init s =
      if strip1 s = "" then { path := ".", is_file := false }
      else if isMdName (strip1 s) then { path := strip1 s, is_file := true }
      else { path := strip1 s, is_file := false } := rfl

theorem init_is_file (s : String) : (Path.init s).is_file = isMdName (strip1 s) := by
  rw [init_spec]
  by_cases h : strip1 s = ""
  · rw [if_pos h, h]; rfl
  · rw [if_neg h]
    by_cases h2 : isMdName (strip1 s) = true
    · rw [if_pos h2, h2]
    · rw [if_neg h2, Bool.not_eq_true] at *
      rw [h2]

theorem init_is_dir (s : String) : (Path.init s).is_dir = !isMdName (strip1 s) := by
  rw [Path.is_dir, init_is_file]

theorem init_congr {a b : String} (h : strip1 a = strip1 b) :
    Path.init a = Path.init b := by
  rw [init_spec, init_spec, h]

theorem string_ext {s t : String} (h : s.data = t.data) : s = t := by
  cases s
  cases t
  cases h
  rfl

theorem str_append_assoc (a b c : String) : (a ++ b) ++ c = a ++ (b ++ c) := by
  apply string_ext
  simp [String.data_append, List.append_assoc]

theorem pyContains_iff {s : String} {c : Char} : pyContains s c = true ↔ c ∈ s.data := by
  rw [pyContains]
  exact List.elem_iff

/-! ### The claims -/

/-- C1: `classify` (i.e. `Path.__init__`) is total over all input strings and
assigns the node kind solely from the final segment's suffix of the stripped
path: an empty stripped path gives the root Directory node; a final segment
ending in `.md`/`.mkd` gives a File node displaying as the joined segments
with no trailing separator; anything else gives a Directory node displaying
as the joined segments plus a trailing separator.  The three concrete spec
examples hold, and no I/O participates (the function is pure and total by
construction). -/
theorem C1_classify_kind_from_suffix (s : String) :
    (strip1 s = "" → Path.init s = { path := ".", is_file := false })
    ∧ (strip1 s ≠ "" → isMdName (lastSeg (strip1 s)) = true →
        (Path.init s).is_file = true
        ∧ Path.str (Path.init s) = joinSlash (pySplit (strip1 s) '/'))
    ∧ (strip1 s ≠ "" → isMdName (lastSeg (strip1 s)) = false →
        (Path.init s).is_dir = true
        ∧ Path.str (Path.init s) = joinSlash (pySplit (strip1 s) '/') ++ "/")
    ∧ Path.str (Path.init "a/b/c.md") = "a/b/c.md"
    ∧ (Path.init "a/b/c.md").is_file = true
    ∧ Path.str (Path.init "a/b") = "a/b/"
    ∧ (Path.init "a/b").is_dir = true
    ∧ Path.init "" = { path := ".", is_file := false } := by
  refine ⟨?_, ?_, ?_, by decide, by decide, by decide, by decide, by decide⟩
  · intro h
    rw [init_spec, if_pos h]
  · intro h hmd
    rw [isMdName_lastSeg] at hmd
    rw [joinSlash_pySplit]
    have hi : Path.init s = { path := strip1 s, is_file := true } := by
      rw [init_spec, if_neg h, if_pos hmd]
    exact ⟨by rw [hi], by rw [hi]; rfl⟩
  · intro h hmd
    rw [isMdName_lastSeg] at hmd
    rw [joinSlash_pySplit]
    have hi : Path.init s = { path := strip1 s, is_file := false } := by
      rw [init_spec, if_neg h, if_neg (by rw [hmd]; decide)]
    exact ⟨by rw [hi]; rfl, by rw [hi]; rfl⟩

theorem C1_witness :
    (Path.init "a/b/c.md").is_file = true ∧ (Path.init "d").is_dir = true :=
  ⟨((C1_classify_kind_from_suffix "a/b/c.md").2.1 (by decide) (by decide)).1,
   ((C1_classify_kind_from_suffix "d").2.2.1 (by decide) (by decide)).1⟩

/-- C4: `parentOf` returns its argument unchanged on a Directory node (an
idempotent fixed point), and on a File node drops the last segment and
re-classifies the joined remainder; a File with no directory component yields
the root Directory node. -/
theorem C4_parent_behaviour (n : Path) :
    (n.is_dir = true → n.parent = n ∧ n.parent.parent = n.parent)
    ∧ (n.is_file = true →
        n.parent = Path.init (joinSlash (pySplit n.path '/').dropLast))
    ∧ (n.is_file = true → pyContains n.path '/' = false →
        n.parent = { path := ".", is_file := false }) := by
  refine ⟨?_, ?_, ?_⟩
  · intro h
    have hp : n.parent = n := by rw [Path.parent, if_pos h]
    exact ⟨hp, by rw [hp, hp]⟩
  · intro h
    have hd : n.is_dir = false := by rw [Path.is_dir, h]; rfl
    rw [Path.parent, if_neg (by rw [hd]; decide)]
  · intro h hc
    have hd : n.is_dir = false := by rw [Path.is_dir, h]; rfl
    have hnc : '/' ∉ n.path.data :=
      fun m => absurd (pyContains_iff.mpr m) (by rw [hc]; decide)
    rw [Path.parent, if_neg (by rw [hd]; decide), pySplit,
      splitAux_of_not_mem '/' n.path.data [] hnc]
    rfl

theorem C4_witness :
    Path.parent (Path.init "a/b") = Path.init "a/b"
    ∧ Path.parent (Path.init "c.md") = { path := ".", is_file := false } :=
  ⟨((C4_parent_behaviour (Path.init "a/b")).1 (by decide)).1,
   (C4_parent_behaviour (Path.init "c.md")).2.2 (by decide) (by decide)⟩

/-- C5 counterexample: the node classified from `"a.md/b.md"` is a File whose
parent re-classifies to `"a.md"`, again a File — so `parentOf` is not
Directory-valued on every node, contrary to the claim. -/
theorem C5_counterexample :
    (Path.init "a.md/b.md").is_file = true
    ∧ (Path.init "a.md/b.md").parent = { path := "a.md", is_file := true }
    ∧ Path.is_dir { path := "a.md", is_file := true } = false := by decide

/-- C5 (amended): `parentOf` is Directory-valued on every Directory node, and
on every File node whose remainder after dropping the last segment does not
itself strip to a name ending in `.md`/`.mkd`; a File living directly under a
directory whose own name ends in `.md`/`.mkd` gets a File-kind parent. -/
theorem C5_parent_directory_valued (n : Path) :
    (n.is_file = false → (n.parent).is_dir = true)
    ∧ (n.is_file = true →
        isMdName (strip1 (joinSlash (pySplit n.path '/').dropLast)) = false →
        (n.parent).is_dir = true) := by
  constructor
  · intro h
    have hd : n.is_dir = true := by rw [Path.is_dir, h]; rfl
    rw [Path.parent, if_pos hd]
    exact hd
  · intro h hmd
    rw [Path.parent, if_neg (by rw [Path.is_dir, h]; decide), init_is_dir, hmd]
    rfl

theorem C5_witness :
    ((Path.init "docs/a.md").parent).is_dir = true
    ∧ ((Path.init "docs").parent).is_dir = true :=
  ⟨(C5_parent_directory_valued (Path.init "docs/a.md")).2 (by decide) (by decide),
   (C5_parent_directory_valued (Path.init "docs")).1 (by decide)⟩

/-- C6 counterexample: `classify` removes at most ONE leading separator, so
`classify("//a.md")` keeps a leading empty path component and differs from
`classify("a.md")`, contrary to the claim. -/
theorem C6_counterexample :
    Path.init "//a.md" ≠ Path.init "a.md"
    ∧ (pySplit (Path.init "//a.md").path '/').headD "x" = "" := by decide

/-- C6 (amended): `classify` strips at most one leading and one trailing
separator: for an input whose core neither starts nor ends with a separator,
adding a single leading and/or trailing separator yields the same node as
classifying the core itself; with repeated separators the extra ones remain
part of the node. -/
theorem C6_single_strip (s : String)
    (h1 : s.data.head? ≠ some '/') (h2 : s.data.getLast? ≠ some '/') :
    Path.init ("/" ++ s ++ "/") = Path.init s
    ∧ Path.init ("/" ++ s) = Path.init s
    ∧ Path.init (s ++ "/") = Path.init s := by
  have hs : strip1 s = s := by
    rw [strip1, removePre_of_head_ne s h1, removeSuf_of_getLast_ne s h2]
  have hss : strip1 (s ++ "/") = s := by
    rw [strip1]
    cases hsd : s.data with
    | nil =>
      have hs0 : s = "" := string_ext (by rw [hsd])
      rw [hs0]
      decide
    | cons a l =>
      have ha : a ≠ '/' := by
        intro e
        exact h1 (by rw [hsd, e]; rfl)
      rw [removePre_of_head_ne _ (by rw [String.data_append, hsd]; simpa using ha),
        removeSuf_append_slash]
  have hps : strip1 ("/" ++ s) = s := by
    rw [strip1, removePre_slash_append, removeSuf_of_getLast_ne s h2]
  have hpss : strip1 ("/" ++ s ++ "/") = s := by
    rw [str_append_assoc, strip1, removePre_slash_append, removeSuf_append_slash]
  exact ⟨init_congr (by rw [hpss, hs]), init_congr (by rw [hps, hs]),
    init_congr (by rw [hss, hs])⟩

theorem C6_witness :
    Path.init ("/" ++ "a.md" ++ "/") = Path.init "a.md" :=
  (C6_single_strip "a.md" (by decide) (by decide)).1

/-- C10 counterexample: for the input `"//a.md"` the classified node displays
as `"/a.md"`, which re-classifies to the different node `"a.md"` — the
round-trip fails, contrary to the claim's universal statement. -/
theorem C10_counterexample :
    Path.init (Path.str (Path.init "//a.md")) ≠ Path.init "//a.md" := by decide

/-- C10 (amended): classification round-trips through display for every input
whose stripped form does not itself begin with a separator (every input not
beginning with a doubled separator): the File display, the Directory
trailing-separator display and the root display `"./"` all re-classify to the
original node. -/
theorem C10_display_roundtrip (s : String)
    (h : (strip1 s).data.head? ≠ some '/') :
    Path.init (Path.str (Path.init s)) = Path.init s := by
  rw [init_spec s]
  by_cases h0 : strip1 s = ""
  · rw [if_pos h0]
    decide
  · rw [if_neg h0]
    by_cases hmd : isMdName (strip1 s) = true
    · rw [if_pos hmd]
      have hstr : Path.str { path := strip1 s, is_file := true } = strip1 s := rfl
      rw [hstr, init_spec (strip1 s)]
      have hs1 : strip1 (strip1 s) = strip1 s := by
        rw [strip1, removePre_of_head_ne _ h,
          removeSuf_of_getLast_ne _ (by rw [isMdName_getLast hmd]; decide)]
      rw [hs1, if_neg h0, if_pos hmd]
    · rw [if_neg hmd]
      have hstr : Path.str { path := strip1 s, is_file := false } = strip1 s ++ "/" := rfl
      rw [hstr, init_spec (strip1 s ++ "/")]
      have hs1 : strip1 (strip1 s ++ "/") = strip1 s := by
        rw [strip1]
        cases hsd : (strip1 s).data with
        | nil => exact absurd (string_ext (by rw [hsd])) h0
        | cons a l =>
          have ha : a ≠ '/' := by
            intro e
            exact h (by rw [hsd, e]; rfl)
          rw [removePre_of_head_ne _
              (by rw [String.data_append, hsd]; simpa using ha),
            removeSuf_append_slash]
      rw [hs1, if_neg h0, if_neg hmd]

theorem C10_witness :
    Path.init (Path.str (Path.init "docs/a.md")) = Path.init "docs/a.md" :=
  C10_display_roundtrip "docs/a.md" (by decide)

/-- C2 counterexample: a nested match whose first segment itself ends in
`.md` — here `"a.md/b.md"` — folds to `"a.md/"`, which re-classifies as a
File, not as a Directory as the claim requires of every folded entry. -/
theorem C2_counterexample :
    FileSystem.filelist (fun _ => ["a.md/b.md"]) { path := ".", is_file := false } =
      [{ path := "..", is_file := false }, { path := "a.md", is_file := true }]
    ∧ Path.is_dir { path := "a.md", is_file := true } = false := by decide

/-- C2 (amended): `list(dir)` maps every match to its collapsed form — a match
with an internal separator becomes its first segment with a separator
appended, a match without one is kept — deduplicates and sorts the collapsed
strings by the code-point order, classifies each, and prepends the two-dot
sentinel Directory entry unconditionally.  A folded entry is marked Directory
unless its first segment itself ends in `.md`/`.mkd`, in which case it
re-classifies as a File.  The concrete `x.md`/`y/z.md` example returns exactly
the three described entries in order. -/
theorem C2_listing (fs : String → List String) (dir : Path) :
    FileSystem.filelist fs dir =
      Path.init ".." :: (sortedSet ((fs (Path.str dir)).map collapse)).map Path.init
    ∧ Path.init ".." = { path := "..", is_file := false }
    ∧ (∀ m, pyContains m '/' = true →
        collapse m = ((pySplit m '/').headD "") ++ "/")
    ∧ (∀ m, pyContains m '/' = false → collapse m = m)
    ∧ (∀ s0 : String, pyContains s0 '/' = false → s0 ≠ "" →
        Path.init (s0 ++ "/") = { path := s0, is_file := isMdName s0 })
    ∧ FileSystem.filelist (fun _ => ["x.md", "y/z.md"]) (Path.init "") =
        [{ path := "..", is_file := false }, { path := "x.md", is_file := true },
         { path := "y", is_file := false }] := by
  refine ⟨rfl, by decide, ?_, ?_, ?_, by decide⟩
  · intro m h
    rw [collapse, if_pos h]
  · intro m h
    rw [collapse, if_neg (by rw [h]; decide)]
  · intro s0 hnc hne
    have hdata : '/' ∉ s0.data :=
      fun m => absurd (pyContains_iff.mpr m) (by rw [hnc]; decide)
    have hstrip : strip1 (s0 ++ "/") = s0 := by
      cases hsd : s0.data with
      | nil => exact absurd (string_ext (by rw [hsd])) hne
      | cons a l =>
        have ha : a ≠ '/' :=
          fun e => hdata (by rw [hsd, e]; exact List.mem_cons_self _ _)
        rw [strip1,
          removePre_of_head_ne _ (by rw [String.data_append, hsd]; simpa using ha),
          removeSuf_append_slash]
    rw [init_spec, hstrip, if_neg hne]
    by_cases hmd : isMdName s0 = true
    · rw [if_pos hmd, hmd]
    · rw [if_neg hmd, Bool.not_eq_true] at *
      rw [hmd]

theorem C2_witness :
    collapse "y/z.md" = "y/"
    ∧ collapse "x.md" = "x.md"
    ∧ Path.init ("y" ++ "/") = { path := "y", is_file := isMdName "y" } :=
  ⟨(C2_listing (fun _ => []) { path := ".", is_file := false }).2.2.1 "y/z.md" (by decide),
   (C2_listing (fun _ => []) { path := ".", is_file := false }).2.2.2.1 "x.md" (by decide),
   (C2_listing (fun _ => []) { path := ".", is_file := false }).2.2.2.2.1 "y"
     (by decide) (by decide)⟩

/-- C3: the content panel branches exactly three ways: a Directory yields the
informational placeholder naming the directory with zero compiler
invocations; a File with compiler exit status 0 yields a content fragment
embedding stdout verbatim; a File with nonzero exit status yields the
error-styled fragment carrying exactly stderr.  The two concrete spec
examples (`exit 0` / stdout `"<p>hi</p>"`, and `exit 2` / stderr
`"parse error: line 3"`) evaluate as claimed. -/
theorem C3_content_branches (comp : String → CompileResult) (p : Path) :
    (p.is_file = false → content comp p = (Frag.info (Path.str p), 0))
    ∧ (p.is_file = true → (comp (Path.str p)).returncode = 0 →
        content comp p = (Frag.htmlContent (comp (Path.str p)).stdout, 1))
    ∧ (p.is_file = true → (comp (Path.str p)).returncode ≠ 0 →
        content comp p = (Frag.danger (comp (Path.str p)).stderr, 1))
    ∧ content (fun _ => { returncode := 0, stdout := "<p>hi</p>", stderr := "" })
        (Path.init "a.md") = (Frag.htmlContent "<p>hi</p>", 1)
    ∧ content (fun _ => { returncode := 2, stdout := "", stderr := "parse error: line 3" })
        (Path.init "a.md") = (Frag.danger "parse error: line 3", 1) := by
  refine ⟨?_, ?_, ?_, by decide, by decide⟩
  · intro h
    rw [content, if_pos h]
  · intro h hr
    rw [content, if_neg (by rw [h]; decide), if_pos hr]
  · intro h hr
    rw [content, if_neg (by rw [h]; decide), if_neg hr]

theorem C3_witness :
    content (fun _ => { returncode := 0, stdout := "ok", stderr := "" })
        (Path.init "x.md") = (Frag.htmlContent "ok", 1)
    ∧ content (fun _ => { returncode := 1, stdout := "", stderr := "bad" })
        (Path.init "x.md") = (Frag.danger "bad", 1)
    ∧ content (fun _ => { returncode := 0, stdout := "", stderr := "" })
        (Path.init "x") = (Frag.info "x/", 0) :=
  ⟨(C3_content_branches _ (Path.init "x.md")).2.1 (by decide) (by decide),
   (C3_content_branches _ (Path.init "x.md")).2.2.1 (by decide) (by decide),
   (C3_content_branches _ (Path.init "x")).1 (by decide)⟩

/-- C7: the listing panel of a rendered page is always
`filelist(parentOf(viewedNode))`, never the viewed node itself; for the
request `"/docs/a.md"` the listing is enumerated against the parent directory
`docs/`, only that oracle entry matters, and the viewed file itself feeds the
content panel. -/
theorem C7_listing_is_parent (fs : String → List String)
    (comp : String → CompileResult) (s : String) :
    (render fs comp s).listing = FileSystem.filelist fs (Path.init s).parent
    ∧ (Path.init "/docs/a.md").parent = { path := "docs", is_file := false }
    ∧ Path.str (Path.init "/docs/a.md").parent = "docs/"
    ∧ (∀ fs1 fs2 : String → List String, fs1 "docs/" = fs2 "docs/" →
        (render fs1 comp "/docs/a.md").listing = (render fs2 comp "/docs/a.md").listing)
    ∧ (render fs (fun _ => { returncode := 0, stdout := "<h1>T</h1>", stderr := "" })
        "/docs/a.md").body = Frag.htmlContent "<h1>T</h1>" := by
  refine ⟨rfl, by decide, by decide, ?_, rfl⟩
  intro fs1 fs2 hagree
  show FileSystem.filelist fs1 (Path.init "/docs/a.md").parent
      = FileSystem.filelist fs2 (Path.init "/docs/a.md").parent
  rw [FileSystem.filelist, FileSystem.filelist,
    show Path.str (Path.init "/docs/a.md").parent = "docs/" from by decide, hagree]

theorem C7_witness :
    (render (fun _ => ["a.md"]) (fun _ => { returncode := 0, stdout := "", stderr := "" })
        "/docs/a.md").listing
      = (render (fun t => if t = "docs/" then ["a.md"] else [])
          (fun _ => { returncode := 0, stdout := "", stderr := "" }) "/docs/a.md").listing :=
  (C7_listing_is_parent (fun _ => []) (fun _ => { returncode := 0, stdout := "", stderr := "" })
    "").2.2.2.1 _ _ (by decide)

/-- C8: `list` has no error channel: when the glob enumeration is empty — as
for a nonexistent directory or one containing no markdown — the listing is
exactly the two-dot sentinel Directory entry and nothing else. -/
theorem C8_empty_listing (fs : String → List String) (p : Path)
    (h : fs (Path.str p) = []) :
    FileSystem.filelist fs p = [{ path := "..", is_file := false }] := by
  rw [FileSystem.filelist, h]
  rfl

theorem C8_witness :
    FileSystem.filelist (fun _ => []) (Path.init "missing") =
      [{ path := "..", is_file := false }] :=
  C8_empty_listing (fun _ => []) (Path.init "missing") rfl

/-- C9: `list` is deterministic and idempotent: its output depends only on
the set of markdown paths the glob enumeration yields for the directory —
two calls whose enumerations contain the same matches (in any order or
multiplicity) return identical ordered sequences. -/
theorem C9_deterministic (fs1 fs2 : String → List String) (p : Path)
    (h : ∀ x, x ∈ fs1 (Path.str p) ↔ x ∈ fs2 (Path.str p)) :
    FileSystem.filelist fs1 p = FileSystem.filelist fs2 p := by
  have hm : ∀ x, x ∈ (fs1 (Path.str p)).map collapse ↔
      x ∈ (fs2 (Path.str p)).map collapse := by
    intro x
    simp only [List.mem_map]
    exact ⟨fun ⟨a, ha, e⟩ => ⟨a, (h a).1 ha, e⟩,
           fun ⟨a, ha, e⟩ => ⟨a, (h a).2 ha, e⟩⟩
  rw [FileSystem.filelist, FileSystem.filelist, sortedSet_eq_of_mem_iff hm]

theorem C9_witness :
    FileSystem.filelist (fun _ => ["b.md", "a.md"]) { path := ".", is_file := false }
      = FileSystem.filelist (fun _ => ["a.md", "b.md", "a.md"])
          { path := ".", is_file := false } :=
  C9_deterministic _ _ _ (by
    intro x
    simp only [List.mem_cons, List.not_mem_nil, or_false]
    tauto)

end Grow
